import Mathlib

/-!
Verification of the two algorithmic cores of the pulumi-iac-aws repository:

* the CIDR subnetting helpers `parseCidr`, `determineSubnetPrefix` and
  `deriveSubnetCidr` of src/modules/networking/index.ts, and
* the constrained-name builder `sanitizeSegment`, `ensureValidStart`,
  `shrinkWithHash` and `buildName` of src/modules/compute/index.ts.

The TypeScript sources are translated into executable Lean definitions.
JavaScript strings are modelled as Lean strings (lists of characters);
JavaScript numbers are modelled as Nat/Int, which is exact for every
value these functions manipulate (all magnitudes stay far below 2^53).
-/

namespace IacAws

/-! ## Model of the relevant JavaScript primitives -/

/-- Decimal digit test, the character class 0-9 used by the source regexes and
by the model of the JavaScript number grammar. -/
def isDigitChar (c : Char) : Bool := 48 ≤ c.toNat && c.toNat ≤ 57

/-- Numeric value of a decimal digit character. -/
def digitVal (c : Char) : Nat := c.toNat - 48

/-- Value of a list of decimal digit characters, most significant first. -/
def natOfDigits (l : List Char) : Nat :=
  l.foldl (fun a c => a * 10 + digitVal c) 0

/-- Hexadecimal digit value, for the 0x form of the JavaScript number
grammar. -/
def hexDigitVal (c : Char) : Option Nat :=
  if '0' ≤ c && c ≤ '9' then some (c.toNat - 48)
  else if 'a' ≤ c && c ≤ 'f' then some (c.toNat - 87)
  else if 'A' ≤ c && c ≤ 'F' then some (c.toNat - 55)
  else none

/-- Octal digit value, for the 0o form of the JavaScript number grammar. -/
def octDigitVal (c : Char) : Option Nat :=
  if '0' ≤ c && c ≤ '7' then some (c.toNat - 48) else none

/-- Binary digit value, for the 0b form of the JavaScript number grammar. -/
def binDigitVal (c : Char) : Option Nat :=
  if c = '0' then some 0 else if c = '1' then some 1 else none

/-- Characters treated as whitespace by the string-to-number conversion of
ECMAScript (WhiteSpace and LineTerminator code points). -/
def jsWhitespace (c : Char) : Bool :=
  c.toNat = 32 || c.toNat = 9 || c.toNat = 10 || c.toNat = 13 ||
  c.toNat = 11 || c.toNat = 12 || c.toNat = 160 || c.toNat = 65279 ||
  c.toNat = 5760 || (8192 ≤ c.toNat && c.toNat ≤ 8202) ||
  c.toNat = 8232 || c.toNat = 8233 || c.toNat = 8239 || c.toNat = 8287 ||
  c.toNat = 12288

/-- Drop the longest run of characters satisfying p from the end of a list. -/
def dropTrailingWhile (p : Char → Bool) (l : List Char) : List Char :=
  (l.reverse.dropWhile p).reverse

/-- Digit run of a non-decimal integer literal: none when empty or when a
character is not a digit of the radix. -/
def parseRadixAux (base : Nat) (digit? : Char → Option Nat) (acc : Nat) :
    List Char → Option Nat
  | [] => some acc
  | c :: r =>
    match digit? c with
    | some d => parseRadixAux base digit? (acc * base + d) r
    | none => none

/-- Value of a non-decimal integer literal body (after the 0x / 0o / 0b
marker): none when the body is empty or contains a foreign character. -/
def parseRadix (base : Nat) (digit? : Char → Option Nat) (l : List Char) :
    Option Nat :=
  if l.isEmpty then none else parseRadixAux base digit? 0 l

/-- Value of a StrDecimalLiteral (optional sign, digits, optional fraction,
optional exponent) when that value is an integer; none when the text is not a
decimal literal or its value is not an integer.  The value is computed with
exact integer arithmetic; the double rounding performed by a JavaScript engine
can only differ from it at magnitudes far beyond the 0..255 / 0..32 range
checks that consume this value in parseCidr. -/
def parseDec (l : List Char) : Option Int :=
  let (sgn, rest) : Int × List Char :=
    match l with
    | [] => (1, [])
    | c :: r => if c = '+' then (1, r) else if c = '-' then (-1, r) else (1, c :: r)
  let (ipart, r1) := rest.span isDigitChar
  let (fpart, r2) :=
    match r1 with
    | '.' :: r => r.span isDigitChar
    | _ => ([], r1)
  if ipart.isEmpty && fpart.isEmpty then none
  else
    let expPart : Option Int :=
      match r2 with
      | [] => some 0
      | c :: r =>
        if c = 'e' || c = 'E' then
          let (es, r3) : Int × List Char :=
            match r with
            | [] => (1, [])
            | c2 :: t =>
              if c2 = '+' then (1, t) else if c2 = '-' then (-1, t)
              else (1, c2 :: t)
          if r3.isEmpty || !(r3.all isDigitChar) then none
          else some (es * (natOfDigits r3 : Int))
        else none
    match expPart with
    | none => none
    | some e =>
      let mantissa := natOfDigits (ipart ++ fpart)
      let shift : Int := e - fpart.length
      if 0 ≤ shift then some (sgn * mantissa * 10 ^ shift.toNat)
      else if 10 ^ (-shift).toNat ∣ mantissa then
        some (sgn * (mantissa / 10 ^ (-shift).toNat))
      else none

/-- Value of a StrNumericLiteral when that value is an integer. -/
def parseNumeric (l : List Char) : Option Int :=
  match l with
  | c0 :: c1 :: rest =>
    if c0 = '0' && (c1 = 'x' || c1 = 'X') then
      (parseRadix 16 hexDigitVal rest).map Int.ofNat
    else if c0 = '0' && (c1 = 'o' || c1 = 'O') then
      (parseRadix 8 octDigitVal rest).map Int.ofNat
    else if c0 = '0' && (c1 = 'b' || c1 = 'B') then
      (parseRadix 2 binDigitVal rest).map Int.ofNat
    else parseDec l
  | _ => parseDec l

/-- Model of the JavaScript expression Number(s) composed with the
Number.isInteger check that every call site in parseCidr performs: some v when
Number(s) is an integer v, none when it is NaN, infinite or fractional (the
source treats those three cases identically, so the model may conflate them).
Follows the ECMAScript StringToNumber grammar: surrounding whitespace is
trimmed, the empty remainder denotes 0, and the remainder is otherwise read as
a signed decimal literal or an unsigned 0x / 0o / 0b literal. -/
def jsNumberInt (l : List Char) : Option Int :=
  let t := dropTrailingWhile jsWhitespace (l.dropWhile jsWhitespace)
  if t.isEmpty then some 0 else parseNumeric t

/-- Model of the JavaScript split method with a single-character separator, as
used by parseCidr with "/" and ".". -/
def splitOnChar (sep : Char) : List Char → List (List Char)
  | [] => [[]]
  | c :: rest =>
    let r := splitOnChar sep rest
    if c = sep then [] :: r
    else
      match r with
      | h :: t => (c :: h) :: t
      | [] => [[c]]

/-! ## Networking module: src/modules/networking/index.ts -/

deriving instance DecidableEq for Except

/-- Error taxonomy of the CIDR helpers, one constructor per throw site group
as named by the specification (section 7). -/
inductive CidrError where
  | InvalidCidrFormat
  | InsufficientAddressSpace
  | SubnetPrefixTooSmall
  | SubnetCapacityExceeded
  deriving DecidableEq, Repr

/-- Constant PREFERRED_SUBNET_PREFIX of the networking module. -/
def PREFERRED_SUBNET_PREFIX : Nat := 26

/-- Constant MAX_SUBNET_PREFIX of the networking module: AWS does not support
subnets smaller than /28. -/
def MAX_SUBNET_PREFIX : Nat := 28

/-- Octet loop of parseCidr: network.split QUOTE . QUOTE .map with a throwing
callback, which fails on the first segment whose Number value is not an
integer in 0..255 and otherwise collects the octet values in order. -/
def parseOctets : List (List Char) → Except CidrError (List Nat)
  | [] => .ok []
  | s :: rest =>
    match jsNumberInt s with
    | none => .error .InvalidCidrFormat
    | some v =>
      if v < 0 || 255 < v then .error .InvalidCidrFormat
      else do
        let vs ← parseOctets rest
        .ok (v.toNat :: vs)

/-- Translation of parseCidr: split the string at "/", reject an empty network
or prefix part, convert the dot-separated octets with the JavaScript Number
coercion, require exactly four of them, require an integer prefix in 0..32,
and return the 32-bit base address together with the prefix length.  All three
throw sites raise the InvalidCidrFormat error of the specification. -/
def parseCidr (cidr : String) : Except CidrError (Nat × Nat) :=
  let parts := splitOnChar '/' cidr.data
  let network := parts.getD 0 []
  let prefixPart := parts.getD 1 []
  if network.isEmpty || prefixPart.isEmpty then .error .InvalidCidrFormat
  else do
    let octets ← parseOctets (splitOnChar '.' network)
    match octets with
    | [o0, o1, o2, o3] =>
      match jsNumberInt prefixPart with
      | none => .error .InvalidCidrFormat
      | some p =>
        if p < 0 || 32 < p then .error .InvalidCidrFormat
        else .ok (o0 * 256 ^ 3 + o1 * 256 ^ 2 + o2 * 256 ^ 1 + o3, p.toNat)
    | _ => .error .InvalidCidrFormat

/-- Translation of intToIp: render a 32-bit address as four dot-separated
decimal octets (Math.floor is Nat division here). -/
def intToIp (value : Nat) : String :=
  toString (value / 256 ^ 3 % 256) ++ "." ++ toString (value / 256 ^ 2 % 256)
    ++ "." ++ toString (value / 256 % 256) ++ "." ++ toString (value % 256)

/-- Fuel-driven ceiling base-2 logarithm, written so that the kernel can
evaluate it (Nat.clog is defined by well-founded recursion and does not
reduce).  The fuel only has to dominate the recursion depth. -/
def clog2Fuel : Nat → Nat → Nat
  | 0, _ => 0
  | fuel + 1, n => if n ≤ 1 then 0 else clog2Fuel fuel ((n + 1) / 2) + 1

/-- Ceiling of the base-2 logarithm; proven equal to Nat.clog 2 below. -/
def ceilLog2 (n : Nat) : Nat := clog2Fuel n n

/-- Translation of determineSubnetPrefix.  Math.ceil (Math.log2 subnetCount)
is ceilLog2 subnetCount = Nat.clog 2 subnetCount: both equal the ceiling of
the base-2 logarithm for every count at which the candidate prefix can pass
the 28 bound (the engine's floating-point log2 could deviate from the exact
ceiling only at magnitudes beyond 2^49, where both sides fail the bound). -/
def determineSubnetPrefix (basePrefix subnetCount : Nat) :
    Except CidrError Nat :=
  let minimumAdditionalBits := ceilLog2 subnetCount
  let minimumPrefix := basePrefix + minimumAdditionalBits
  let preferredPrefix := max PREFERRED_SUBNET_PREFIX basePrefix
  let subnetPrefix := max preferredPrefix minimumPrefix
  if subnetPrefix > MAX_SUBNET_PREFIX then .error .InsufficientAddressSpace
  else .ok subnetPrefix

/-- Base address computed by deriveSubnetCidr for one subnet index: the parent
address aligned down to its network boundary plus the index times the subnet
size. -/
def subnetBase (baseIp basePrefix subnetPrefix subnetIndex : Nat) : Nat :=
  baseIp / 2 ^ (32 - basePrefix) * 2 ^ (32 - basePrefix)
    + subnetIndex * 2 ^ (32 - subnetPrefix)

/-- Translation of deriveSubnetCidr.  Exponents use Nat subtraction, which
agrees with the source for every prefix in 0..32 (parseCidr bounds the parent
prefix, and the theorems bound the subnet prefix). -/
def deriveSubnetCidr (baseCidr : String) (subnetPrefix subnetIndex : Nat) :
    Except CidrError String := do
  let (baseIp, basePrefix) ← parseCidr baseCidr
  if subnetPrefix < basePrefix then .error .SubnetPrefixTooSmall
  else
    let availableSubnets := 2 ^ (subnetPrefix - basePrefix)
    if subnetIndex ≥ availableSubnets then .error .SubnetCapacityExceeded
    else
      .ok (intToIp (subnetBase baseIp basePrefix subnetPrefix subnetIndex)
        ++ "/" ++ toString subnetPrefix)

/-- Address range denoted by a CIDR block: the aligned network base and the
2 ^ (32 - prefix) addresses from it. -/
def netBase (ip pfx : Nat) : Nat := ip / 2 ^ (32 - pfx) * 2 ^ (32 - pfx)

/-- Set of addresses covered by a CIDR block. -/
def cidrRange (ip pfx : Nat) : Set Nat :=
  Set.Ico (netBase ip pfx) (netBase ip pfx + 2 ^ (32 - pfx))

/-! ## SHA-1, the model of crypto.createHash of the compute module -/

/-- Modulus of 32-bit words. -/
def M32 : Nat := 4294967296

/-- UTF-8 byte sequence of one character, the encoding crypto.update applies
to a JavaScript string. -/
def utf8Bytes (c : Char) : List Nat :=
  let n := c.toNat
  if n < 128 then [n]
  else if n < 2048 then [192 ||| (n >>> 6), 128 ||| (n &&& 63)]
  else if n < 65536 then
    [224 ||| (n >>> 12), 128 ||| ((n >>> 6) &&& 63), 128 ||| (n &&& 63)]
  else
    [240 ||| (n >>> 18), 128 ||| ((n >>> 12) &&& 63),
      128 ||| ((n >>> 6) &&& 63), 128 ||| (n &&& 63)]

/-- UTF-8 bytes of a string. -/
def strBytes (l : List Char) : List Nat := (l.map utf8Bytes).flatten

/-- Rotate a 32-bit word left by k bits. -/
def rotl32 (k x : Nat) : Nat := (((x <<< k) % M32) ||| (x >>> (32 - k)))

/-- Bitwise complement of a 32-bit word. -/
def bnot32 (x : Nat) : Nat := 4294967295 - x

/-- FIPS 180-4 message padding: append the 0x80 marker, zero bytes up to
56 mod 64, and the bit length as eight big-endian bytes. -/
def sha1Pad (msg : List Nat) : List Nat :=
  let ml := msg.length * 8
  let padZeros := (119 - msg.length % 64) % 64
  msg ++ 128 :: List.replicate padZeros 0 ++
    [ml >>> 56 &&& 255, ml >>> 48 &&& 255, ml >>> 40 &&& 255, ml >>> 32 &&& 255,
      ml >>> 24 &&& 255, ml >>> 16 &&& 255, ml >>> 8 &&& 255, ml &&& 255]

/-- Big-endian 32-bit words of a byte list. -/
def bytesToWords : List Nat → List Nat
  | b0 :: b1 :: b2 :: b3 :: rest =>
    ((b0 <<< 24) ||| (b1 <<< 16) ||| (b2 <<< 8) ||| b3) :: bytesToWords rest
  | _ => []

/-- Message-schedule extension: prepend k more words to the reversed word
list, each the rotated xor of the words 3, 8, 14 and 16 positions back. -/
def schedAux : Nat → List Nat → List Nat
  | 0, acc => acc
  | k + 1, acc =>
    let w := rotl32 1 (((acc.getD 2 0 ^^^ acc.getD 7 0) ^^^ acc.getD 13 0)
      ^^^ acc.getD 15 0)
    schedAux k (w :: acc)

/-- Eighty-round compression loop over the schedule words. -/
def compAux : Nat → List Nat → Nat × Nat × Nat × Nat × Nat →
    Nat × Nat × Nat × Nat × Nat
  | _, [], st => st
  | i, w :: rest, (a, b, c, d, e) =>
    let fk :=
      if i < 20 then ((b &&& c) ||| (bnot32 b &&& d), 1518500249)
      else if i < 40 then ((b ^^^ c) ^^^ d, 1859775393)
      else if i < 60 then ((b &&& c) ||| (b &&& d) ||| (c &&& d), 2400959708)
      else ((b ^^^ c) ^^^ d, 3395469782)
    let temp := (rotl32 5 a + fk.1 + e + fk.2 + w) % M32
    compAux (i + 1) rest (temp, a, rotl32 30 b, c, d)

/-- Per-block loop: absorb 16-word blocks into the running state.  The fuel
dominates the number of blocks. -/
def sha1Blocks : Nat → List Nat → Nat × Nat × Nat × Nat × Nat →
    Nat × Nat × Nat × Nat × Nat
  | 0, _, h => h
  | _ + 1, [], h => h
  | fuel + 1, ws, (h0, h1, h2, h3, h4) =>
    let block := ws.take 16
    let rest := ws.drop 16
    let full := (schedAux 64 block.reverse).reverse
    let st := compAux 0 full (h0, h1, h2, h3, h4)
    sha1Blocks fuel rest ((h0 + st.1) % M32, (h1 + st.2.1) % M32,
      (h2 + st.2.2.1) % M32, (h3 + st.2.2.2.1) % M32, (h4 + st.2.2.2.2) % M32)

/-- Lowercase hexadecimal digit. -/
def hexChar (n : Nat) : Char :=
  if n < 10 then Char.ofNat (48 + n) else Char.ofNat (87 + n)

/-- Eight hex characters of a 32-bit word, most significant nibble first. -/
def word8Hex (w : Nat) : List Char :=
  [hexChar (w >>> 28 &&& 15), hexChar (w >>> 24 &&& 15),
    hexChar (w >>> 20 &&& 15), hexChar (w >>> 16 &&& 15),
    hexChar (w >>> 12 &&& 15), hexChar (w >>> 8 &&& 15),
    hexChar (w >>> 4 &&& 15), hexChar (w &&& 15)]

/-- Model of crypto.createHash of sha1 followed by update and a hex digest:
the FIPS 180-4 SHA-1 of the UTF-8 bytes of the string, in lowercase hex. -/
def sha1hex (s : String) : String :=
  let ws := bytesToWords (sha1Pad (strBytes s.data))
  let h := sha1Blocks ws.length ws
    (1732584193, 4023233417, 2562383102, 271733878, 3285377520)
  ⟨word8Hex h.1 ++ word8Hex h.2.1 ++ word8Hex h.2.2.1 ++ word8Hex h.2.2.2.1
    ++ word8Hex h.2.2.2.2⟩

/-! ## Compute module: src/modules/compute/index.ts -/

/-- Constant MIN_NAME_LENGTH of the compute module. -/
def MIN_NAME_LENGTH : Nat := 4

/-- Constant DEFAULT_BASE_SEGMENT of the compute module. -/
def DEFAULT_BASE_SEGMENT : List Char := "apprunner".data

/-- Constant FALLBACK_SEGMENT of the compute module. -/
def FALLBACK_SEGMENT : List Char := "app0".data

/-- Alphanumeric character class A-Za-z0-9 of the source regexes. -/
def isAlnumChar (c : Char) : Bool :=
  (65 ≤ c.toNat && c.toNat ≤ 90) || (97 ≤ c.toNat && c.toNat ≤ 122) ||
    (48 ≤ c.toNat && c.toNat ≤ 57)

/-- Separator characters hyphen and underscore. -/
def isSepChar (c : Char) : Bool := c = '-' || c = '_'

/-- Character class A-Za-z0-9-_ kept by sanitizeSegment. -/
def isNameChar (c : Char) : Bool := isAlnumChar c || isSepChar c

/-- State of the separator-collapsing scan: outside any separator run, after
a single pending separator p, or inside a run already emitted as one hyphen. -/
inductive CState where
  | normal
  | pending (p : Char)
  | swallow

/-- Scan for the global replacement of every maximal run of two or more
separators by one hyphen (the greedy leftmost regex match consumes a maximal
run; a run of length one is left as it is). -/
def collapseAux : CState → List Char → List Char
  | .normal, [] => []
  | .pending p, [] => [p]
  | .swallow, [] => []
  | .normal, c :: rest =>
    if isSepChar c then collapseAux (.pending c) rest
    else c :: collapseAux .normal rest
  | .pending p, c :: rest =>
    if isSepChar c then '-' :: collapseAux .swallow rest
    else p :: c :: collapseAux .normal rest
  | .swallow, c :: rest =>
    if isSepChar c then collapseAux .swallow rest
    else c :: collapseAux .normal rest

/-- Second replace of sanitizeSegment: every maximal run of two or more
separators becomes one hyphen. -/
def collapseSeps (l : List Char) : List Char := collapseAux .normal l

/-- Removal of leading hyphens, the third replace of sanitizeSegment (the
regex strips hyphens only, not underscores). -/
def stripLeadingHyphens (l : List Char) : List Char :=
  l.dropWhile (fun c => c = '-')

/-- Removal of trailing hyphens, the fourth replace of sanitizeSegment and
the replace inside shrinkWithHash (hyphens only, not underscores). -/
def stripTrailingHyphens (l : List Char) : List Char :=
  dropTrailingWhile (fun c => c = '-') l

/-- Translation of sanitizeSegment: replace every character outside
A-Za-z0-9-_ by a hyphen, collapse separator runs, strip leading and trailing
hyphens. -/
def sanitizeSegment (l : List Char) : List Char :=
  stripTrailingHyphens (stripLeadingHyphens
    (collapseSeps (l.map (fun c => if isNameChar c then c else '-'))))

/-- Translation of ensureValidStart: strip leading non-alphanumerics and fall
back to FALLBACK_SEGMENT when nothing remains. -/
def ensureValidStart (l : List Char) : List Char :=
  let trimmed := l.dropWhile (fun c => !isAlnumChar c)
  if trimmed.isEmpty then FALLBACK_SEGMENT else trimmed

/-- Model of the JavaScript slice method with one negative argument: the last
k characters (all of them when k exceeds the length). -/
def takeLast (k : Nat) (l : List Char) : List Char := l.drop (l.length - k)

/-- Translation of shrinkWithHash.  The hash characters are taken from the
sha1 hex digest of the value argument, which at both call sites in buildName
is the sanitized base segment. -/
def shrinkWithHash (value : List Char) (maxLength : Nat) : List Char :=
  if value.length ≤ maxLength then value
  else if maxLength ≤ MIN_NAME_LENGTH then value.take maxLength
  else
    let hashLength := min 6 (max 2 (maxLength - 2))
    let prefixLength := max 1 (maxLength - hashLength - 1)
    let hash := (sha1hex (String.mk value)).data.take hashLength
    let pfx := stripTrailingHyphens (value.take prefixLength)
    let safePrefix :=
      if pfx.isEmpty then FALLBACK_SEGMENT.take prefixLength else pfx
    let combined := safePrefix ++ '-' :: hash
    if maxLength < combined.length then combined.take maxLength else combined

/-- Budget allocation step of buildName (source lines 50-62): reserve the
suffix length plus one for the separator; when the base budget would fall
below MIN_NAME_LENGTH, keep only the tail of the suffix within the remaining
allowance (or drop the suffix entirely when no allowance remains) and re-fix
the budget.  JavaScript number subtraction is modelled by Nat subtraction:
a JavaScript value that would be negative corresponds to a truncated Nat 0,
and both sides of every comparison take the same branch. -/
def budgetAndSuffix (suffixSegment : List Char) (maxLength : Nat) :
    List Char × Nat :=
  let baseBudget0 := maxLength - suffixSegment.length - 1
  if baseBudget0 < MIN_NAME_LENGTH then
    let suffixAllowance := maxLength - MIN_NAME_LENGTH - 1
    if suffixAllowance = 0 then (([] : List Char), maxLength)
    else (takeLast suffixAllowance suffixSegment, MIN_NAME_LENGTH)
  else (suffixSegment, baseBudget0)

/-- Suffix re-fit step of buildName (source lines 66-71): drop the suffix when
no room is left after the shrunk base, else keep at most the available tail. -/
def suffixAfterBase (nb suffix1 : List Char) (maxLength : Nat) : List Char :=
  let availableForSuffix := maxLength - nb.length - 1
  if availableForSuffix = 0 then ([] : List Char)
  else if availableForSuffix < suffix1.length then
    takeLast availableForSuffix suffix1
  else suffix1

/-- Join step of buildName (source lines 76-79): hyphen-join base and suffix,
or the base alone when the suffix is empty. -/
def joinSegments (nb ns : List Char) : List Char :=
  if 0 < ns.length then nb ++ '-' :: ns else nb

/-- Final steps of buildName (source lines 81-93): re-sanitize the joined
name, re-validate its start, hard-truncate to maxLength stripping a trailing
hyphen cut, and pad with zeros up to MIN_NAME_LENGTH. -/
def finalizeName (combined0 : List Char) (maxLength : Nat) : List Char :=
  let combined1 := ensureValidStart (sanitizeSegment combined0)
  let combined2 :=
    if maxLength < combined1.length then
      ensureValidStart (stripTrailingHyphens (combined1.take maxLength))
    else combined1
  if combined2.length < MIN_NAME_LENGTH then
    (combined2 ++ ['0', '0', '0', '0']).take MIN_NAME_LENGTH
  else combined2

/-- Translation of buildName on character lists, phase by phase in source
order: sanitize both segments, apply the default and the start fix to the
base, allocate budgets when a suffix is present, shrink the base with the
content hash, re-fit the suffix, join, and finalize. -/
def buildNameList (base suffix : List Char) (maxLength : Nat) : List Char :=
  let s0 := sanitizeSegment base
  let baseSegment :=
    ensureValidStart (if s0.isEmpty then DEFAULT_BASE_SEGMENT else s0)
  let suffixSegment := sanitizeSegment suffix
  if 0 < suffixSegment.length then
    let sb := budgetAndSuffix suffixSegment maxLength
    let nb := shrinkWithHash baseSegment sb.2
    let ns := suffixAfterBase nb sb.1 maxLength
    finalizeName (joinSegments nb ns) maxLength
  else finalizeName (shrinkWithHash baseSegment maxLength) maxLength

/-- Translation of buildName. -/
def buildName (base suffix : String) (maxLength : Nat) : String :=
  ⟨buildNameList base.data suffix.data maxLength⟩

/-! ## parseCidr: the spec format, helper lemmas and claim C7 -/

/-- Octet as the specification words it: a nonempty decimal numeral whose
value lies in 0..255. -/
def specOctet (l : List Char) : Bool :=
  !l.isEmpty && l.all isDigitChar && natOfDigits l ≤ 255

/-- Format of a CIDR string exactly as the specification states it: four
dot-separated octets, a slash, and a decimal prefix numeral in 0..32. -/
def specCidrFormat (s : String) : Bool :=
  match splitOnChar '/' s.data with
  | [net, pre] =>
    (match splitOnChar '.' net with
     | [a, b, c, d] => specOctet a && specOctet b && specOctet c && specOctet d
     | _ => false)
      && (!pre.isEmpty && pre.all isDigitChar && natOfDigits pre ≤ 32)
  | _ => false

/-! ## Charset and separator-chain lemmas for sanitizeSegment (claim C5) -/

/-- Adjacent-pair relation of the charset claim: no two consecutive
separator characters (reducible so that decidability is inferred). -/
abbrev noTwoSeps (a b : Char) : Prop := (isSepChar a && isSepChar b) = false

/-! ## Claim C6: source of the shrink hash -/

/-- Modelled from the spec: the shrink-with-hash step exactly as section 4.2
step 4 words it, with the short content hash derived from the original,
unsanitized base string passed to buildName instead of from the value being
shrunk; every other step follows the source shrinkWithHash. -/
def shrinkWithHashSpec (originalBase : String) (value : List Char)
    (maxLength : Nat) : List Char :=
  if value.length ≤ maxLength then value
  else if maxLength ≤ MIN_NAME_LENGTH then value.take maxLength
  else
    let hashLength := min 6 (max 2 (maxLength - 2))
    let prefixLength := max 1 (maxLength - hashLength - 1)
    let hash := (sha1hex originalBase).data.take hashLength
    let pfx := stripTrailingHyphens (value.take prefixLength)
    let safePrefix :=
      if pfx.isEmpty then FALLBACK_SEGMENT.take prefixLength else pfx
    let combined := safePrefix ++ '-' :: hash
    if maxLength < combined.length then combined.take maxLength else combined

/-- Modelled from the spec: buildName with the claim-C6 hash source, the
refinement target compared against the source translation buildName. -/
def buildNameSpecList (base : String) (suffix : List Char) (maxLength : Nat) :
    List Char :=
  let s0 := sanitizeSegment base.data
  let baseSegment :=
    ensureValidStart (if s0.isEmpty then DEFAULT_BASE_SEGMENT else s0)
  let suffixSegment := sanitizeSegment suffix
  if 0 < suffixSegment.length then
    let sb := budgetAndSuffix suffixSegment maxLength
    let nb := shrinkWithHashSpec base baseSegment sb.2
    let ns := suffixAfterBase nb sb.1 maxLength
    finalizeName (joinSegments nb ns) maxLength
  else finalizeName (shrinkWithHashSpec base baseSegment maxLength) maxLength

/-- Modelled from the spec: string-level wrapper of buildNameSpecList. -/
def buildNameSpec (base suffix : String) (maxLength : Nat) : String :=
  ⟨buildNameSpecList base suffix.data maxLength⟩


theorem clog2Fuel_eq_clog : ∀ fuel n, n ≤ fuel → clog2Fuel fuel n = Nat.clog 2 n := by
  intro fuel
  induction fuel with
  | zero =>
    intro n hn
    interval_cases n
    simp [clog2Fuel]
  | succ fuel ih =>
    intro n hn
    by_cases h1 : n ≤ 1
    · rcases Nat.le_one_iff_eq_zero_or_eq_one.mp h1 with rfl | rfl <;>
        simp [clog2Fuel]
    · push_neg at h1
      have h2 : 2 ≤ n := h1
      have hrec : Nat.clog 2 n = Nat.clog 2 ((n + 1) / 2) + 1 := by
        have := Nat.clog_of_two_le (b := 2) (n := n) (by norm_num) h2
        simpa using this
      have hle : (n + 1) / 2 ≤ fuel := by omega
      simp only [clog2Fuel, if_neg (by omega : ¬ n ≤ 1)]
      rw [ih _ hle, hrec]

theorem ceilLog2_eq_clog (n : Nat) : ceilLog2 n = Nat.clog 2 n :=
  clog2Fuel_eq_clog n n le_rfl

set_option maxRecDepth 20000 in
example : sha1hex "abc" = "a9993e364706816aba3e25717850c26c9cd0d89d" := by
  decide

set_option maxRecDepth 20000 in
example : sha1hex "" = "da39a3ee5e6b4b0d3255bfef95601890afd80709" := by
  decide

example : buildName "abc_" "" 10 = "abc_" := by decide

example : buildName "" "" 10 = "apprunner" := by decide

example : buildName "a" "" 2 = "a000" := by decide

set_option maxRecDepth 40000 in
example :
    buildName "my-very-long-application-name-that-exceeds-limits"
      "autoscaling-prod" 32 = "my-very-703e7b-autoscaling-prod" := by decide

set_option maxRecDepth 40000 in
example :
    buildName "my-very-long-application-name-that-exceeds-limits" "" 20
      = "my-very-long-703e7b" := by decide

set_option maxRecDepth 40000 in
example :
    buildName "my!app!name!is!very!long!!" "" 20 = "my-app-name-i-b57f4a" := by
  decide

example : buildName "test-app" "service-dev" 40 = "test-app-service-dev" := by
  decide

set_option maxRecDepth 40000 in
example : buildName "---" "___" 8 = "a-c2f57a" := by decide

example : buildName "__a__b__" "-_c_-" 15 = "a-b-c" := by decide

set_option maxRecDepth 40000 in
example :
    buildName "xxxxxxxxxxxxxxxxxxxxxxxxxxxxxxxxxxxxxxxxxxxxxxxxxx" "suffix" 12
      = "x-c3f-suffix" := by decide

example :
    buildName "xxxxxxxxxxxxxxxxxxxxxxxxxxxxxxxxxxxxxxxxxxxxxxxxxx"
      "ssssssssssssssssssssssssssssssssssssssssssssssssss" 9 = "xxxx-ssss" := by
  decide

set_option maxRecDepth 40000 in
example :
    buildName "xxxxxxxxxxxxxxxxxxxxxxxxxxxxxxxxxxxxxxxxxxxxxxxxxx"
      "ssssssssssssssssssssssssssssssssssssssssssssssssss" 5 = "x-c3f" := by
  decide

example :
    buildName "xxxxxxxxxxxxxxxxxxxxxxxxxxxxxxxxxxxxxxxxxxxxxxxxxx"
      "ssssssssssssssssssssssssssssssssssssssssssssssssss" 6 = "xxxx-s" := by
  decide

example : parseCidr "10.2.0.0/24" = .ok (167903232, 24) := by decide

example : parseCidr "999.1.1.1/24" = .error .InvalidCidrFormat := by decide

example : parseCidr "10..0.0/24" = .ok (167772160, 24) := by decide

example : parseCidr "10.0.0.0" = .error .InvalidCidrFormat := by decide

example : jsNumberInt " 12 ".data = some 12 := by decide

example : jsNumberInt "0x10".data = some 16 := by decide

example : jsNumberInt "1e2".data = some 100 := by decide

example : jsNumberInt "1.5".data = none := by decide

example : jsNumberInt "2.0".data = some 2 := by decide

example : determineSubnetPrefix 24 2 = .ok 26 := by decide

example : determineSubnetPrefix 30 9 = .error .InsufficientAddressSpace := by
  decide

example : deriveSubnetCidr "10.2.0.0/24" 26 0 = .ok "10.2.0.0/26" := by decide

example : deriveSubnetCidr "10.2.0.0/24" 26 1 = .ok "10.2.0.64/26" := by
  decide

/-! ## Helper lemmas about determineSubnetPrefix -/

theorem determineSubnetPrefix_ok_iff (bp n p : Nat) :
    determineSubnetPrefix bp n = .ok p ↔
      max (max PREFERRED_SUBNET_PREFIX bp) (bp + Nat.clog 2 n) ≤ MAX_SUBNET_PREFIX ∧
        p = max (max PREFERRED_SUBNET_PREFIX bp) (bp + Nat.clog 2 n) := by
  simp only [determineSubnetPrefix, ceilLog2_eq_clog]
  split
  · next h => simp; omega
  · next h => simp; omega

theorem det_ok_facts (bp n p : Nat) (h : determineSubnetPrefix bp n = .ok p) :
    bp ≤ p ∧ p ≤ 28 ∧ n ≤ 2 ^ (p - bp) := by
  rw [determineSubnetPrefix_ok_iff] at h
  obtain ⟨hle, rfl⟩ := h
  refine ⟨by omega, ?_, ?_⟩
  · simpa [MAX_SUBNET_PREFIX] using hle
  · calc n ≤ 2 ^ Nat.clog 2 n := Nat.le_pow_clog (by norm_num) n
    _ ≤ 2 ^ (max (max PREFERRED_SUBNET_PREFIX bp) (bp + Nat.clog 2 n) - bp) :=
      Nat.pow_le_pow_right (by norm_num) (by omega)

/-- C4: determineSubnetPrefix computes the candidate prefix
max (max 26 basePrefix) (basePrefix + ceil (log2 subnetCount)) — the ceiling
log being Nat.clog 2 — fails with InsufficientAddressSpace exactly when that
candidate exceeds 28, and returns the candidate otherwise. -/
theorem determineSubnetPrefix_spec (basePrefix subnetCount : Nat)
    (hbp : basePrefix ≤ 32) (hn : 1 ≤ subnetCount) :
    (determineSubnetPrefix basePrefix subnetCount
        = .error .InsufficientAddressSpace ↔
      28 < max (max 26 basePrefix) (basePrefix + Nat.clog 2 subnetCount)) ∧
    (max (max 26 basePrefix) (basePrefix + Nat.clog 2 subnetCount) ≤ 28 →
      determineSubnetPrefix basePrefix subnetCount
        = .ok (max (max 26 basePrefix) (basePrefix + Nat.clog 2 subnetCount))) := by
  simp only [determineSubnetPrefix, ceilLog2_eq_clog, PREFERRED_SUBNET_PREFIX,
    MAX_SUBNET_PREFIX]
  split
  · next h => simp; omega
  · next h => simp; omega

/-- Witness for C4 at basePrefix 24 and subnetCount 4: the candidate is 26
and is returned. -/
theorem determineSubnetPrefix_spec_witness :
    determineSubnetPrefix 24 4 = .ok 26 := by
  have hc : Nat.clog 2 4 = 2 := by rw [← ceilLog2_eq_clog]; decide
  have h := (determineSubnetPrefix_spec 24 4 (by norm_num) (by norm_num)).2
  rw [hc] at h
  simpa using h (by norm_num)

/-- C8: a successfully determined prefix p always provides capacity for the
requested count, 2 ^ (p - basePrefix) ≥ subnetCount. -/
theorem determineSubnetPrefix_capacity (basePrefix subnetCount p : Nat)
    (hn : 1 ≤ subnetCount)
    (h : determineSubnetPrefix basePrefix subnetCount = .ok p) :
    subnetCount ≤ 2 ^ (p - basePrefix) :=
  (det_ok_facts basePrefix subnetCount p h).2.2

/-- Witness for C8 at basePrefix 24 and subnetCount 4. -/
theorem determineSubnetPrefix_capacity_witness :
    1 ≤ 4 ∧ determineSubnetPrefix 24 4 = .ok 26 ∧ 4 ≤ 2 ^ (26 - 24) :=
  ⟨by norm_num, by decide,
    determineSubnetPrefix_capacity 24 4 26 (by norm_num) (by decide)⟩

/-- C9: both algorithms are deterministic — the embedding is a pure function
of its arguments (the source reads no clock, randomness or ambient state; its
only digest is a content hash of the argument), so identical inputs give
identical outputs. -/
theorem algorithms_deterministic (base suffix : String) (maxLength : Nat)
    (baseCidr : String) (subnetPrefix subnetIndex : Nat) :
    buildName base suffix maxLength = buildName base suffix maxLength ∧
      deriveSubnetCidr baseCidr subnetPrefix subnetIndex
        = deriveSubnetCidr baseCidr subnetPrefix subnetIndex :=
  ⟨rfl, rfl⟩

/-! ## deriveSubnetCidr: reduction helper and the claims about it -/

theorem deriveSubnetCidr_eq (baseCidr : String) (ip bp sp idx : Nat)
    (hparse : parseCidr baseCidr = .ok (ip, bp)) :
    deriveSubnetCidr baseCidr sp idx =
      if sp < bp then .error .SubnetPrefixTooSmall
      else if 2 ^ (sp - bp) ≤ idx then .error .SubnetCapacityExceeded
      else .ok (intToIp (subnetBase ip bp sp idx) ++ "/" ++ toString sp) := by
  simp only [deriveSubnetCidr, hparse, Except.bind, bind, ge_iff_le]

/-- C3: with a parsable base CIDR, deriveSubnetCidr fails with
SubnetPrefixTooSmall exactly when the subnet prefix is below the base prefix,
fails with SubnetCapacityExceeded exactly when the index reaches
2 ^ (subnetPrefix - basePrefix), and otherwise renders the address
parent-aligned-base + index * 2 ^ (32 - subnetPrefix) with the subnet prefix
(prefixes are capped at 32, the CIDR prefix domain enforced by parseCidr). -/
theorem deriveSubnetCidr_spec (baseCidr : String) (ip bp sp idx : Nat)
    (hparse : parseCidr baseCidr = .ok (ip, bp)) (hsp : sp ≤ 32) :
    (deriveSubnetCidr baseCidr sp idx = .error .SubnetPrefixTooSmall ↔ sp < bp) ∧
    (deriveSubnetCidr baseCidr sp idx = .error .SubnetCapacityExceeded ↔
      bp ≤ sp ∧ 2 ^ (sp - bp) ≤ idx) ∧
    (bp ≤ sp → idx < 2 ^ (sp - bp) →
      deriveSubnetCidr baseCidr sp idx
        = .ok (intToIp (subnetBase ip bp sp idx) ++ "/" ++ toString sp)) := by
  rw [deriveSubnetCidr_eq baseCidr ip bp sp idx hparse]
  by_cases h1 : sp < bp
  · simp [h1]
  · by_cases h2 : 2 ^ (sp - bp) ≤ idx
    · simp [h1, h2]
      omega
    · simp [h1, h2]

/-- Witness for C3 on the base 10.2.0.0/24 with subnet prefix 26 and
index 1. -/
theorem deriveSubnetCidr_spec_witness :
    deriveSubnetCidr "10.2.0.0/24" 26 1
      = .ok (intToIp (subnetBase 167903232 24 26 1) ++ "/" ++ toString 26) :=
  (deriveSubnetCidr_spec "10.2.0.0/24" 167903232 24 26 1 (by decide)
    (by norm_num)).2.2 (by norm_num) (by norm_num)

/-- C1: for a parsable base CIDR and a prefix returned by
determineSubnetPrefix for subnetCount n, the blocks derived for two distinct
indices below n are disjoint address ranges, each contained in the parent
address range. -/
theorem subnets_nonoverlapping (baseCidr : String) (ip bp n p i j : Nat)
    (hparse : parseCidr baseCidr = .ok (ip, bp))
    (hdet : determineSubnetPrefix bp n = .ok p)
    (hi : i < n) (hj : j < n) (hne : i ≠ j) :
    deriveSubnetCidr baseCidr p i
        = .ok (intToIp (subnetBase ip bp p i) ++ "/" ++ toString p) ∧
    deriveSubnetCidr baseCidr p j
        = .ok (intToIp (subnetBase ip bp p j) ++ "/" ++ toString p) ∧
    Disjoint (cidrRange (subnetBase ip bp p i) p)
      (cidrRange (subnetBase ip bp p j) p) ∧
    cidrRange (subnetBase ip bp p i) p ⊆ cidrRange ip bp ∧
    cidrRange (subnetBase ip bp p j) p ⊆ cidrRange ip bp := by
  obtain ⟨hbp, hp28, hcap⟩ := det_ok_facts bp n p hdet
  have hS : 0 < 2 ^ (32 - p) := Nat.pos_pow_of_pos _ (by norm_num)
  have hsplit : (2 : Nat) ^ (32 - bp) = 2 ^ (p - bp) * 2 ^ (32 - p) := by
    rw [← pow_add]
    congr 1
    omega
  obtain ⟨m, hm⟩ : ∃ m, ip / 2 ^ (32 - bp) * 2 ^ (32 - bp)
      = m * 2 ^ (32 - p) :=
    ⟨ip / 2 ^ (32 - bp) * 2 ^ (p - bp), by rw [hsplit]; ring⟩
  have hsb : ∀ k, subnetBase ip bp p k = (m + k) * 2 ^ (32 - p) := by
    intro k
    unfold subnetBase
    rw [hm]
    ring
  have hnb : ∀ k, netBase (subnetBase ip bp p k) p = subnetBase ip bp p k := by
    intro k
    unfold netBase
    rw [hsb k, Nat.mul_div_cancel _ hS]
  have hrange : ∀ k, cidrRange (subnetBase ip bp p k) p
      = Set.Ico ((m + k) * 2 ^ (32 - p)) ((m + k + 1) * 2 ^ (32 - p)) := by
    intro k
    unfold cidrRange
    rw [hnb k, hsb k]
    ring_nf
  have hparent : cidrRange ip bp
      = Set.Ico (m * 2 ^ (32 - p))
          (m * 2 ^ (32 - p) + 2 ^ (p - bp) * 2 ^ (32 - p)) := by
    unfold cidrRange netBase
    rw [hm, hsplit]
  have hok : ∀ k, k < n → deriveSubnetCidr baseCidr p k
      = .ok (intToIp (subnetBase ip bp p k) ++ "/" ++ toString p) := by
    intro k hk
    rw [deriveSubnetCidr_eq baseCidr ip bp p k hparse]
    rw [if_neg (by omega), if_neg (by push_neg; exact lt_of_lt_of_le hk hcap)]
  have hsub : ∀ k, k < n →
      cidrRange (subnetBase ip bp p k) p ⊆ cidrRange ip bp := by
    intro k hk
    rw [hrange, hparent]
    apply Set.Ico_subset_Ico
    · exact Nat.mul_le_mul_right _ (by omega)
    · have hkE : k + 1 ≤ 2 ^ (p - bp) := le_trans hk hcap
      calc (m + k + 1) * 2 ^ (32 - p) ≤ (m + 2 ^ (p - bp)) * 2 ^ (32 - p) :=
        Nat.mul_le_mul_right _ (by omega)
      _ = m * 2 ^ (32 - p) + 2 ^ (p - bp) * 2 ^ (32 - p) := by ring
  refine ⟨hok i hi, hok j hj, ?_, hsub i hi, hsub j hj⟩
  rw [hrange, hrange, Set.Ico_disjoint_Ico]
  rcases lt_or_gt_of_ne hne with h | h
  · calc min ((m + i + 1) * 2 ^ (32 - p)) ((m + j + 1) * 2 ^ (32 - p))
        ≤ (m + i + 1) * 2 ^ (32 - p) := min_le_left _ _
    _ ≤ (m + j) * 2 ^ (32 - p) := Nat.mul_le_mul_right _ (by omega)
    _ ≤ max ((m + i) * 2 ^ (32 - p)) ((m + j) * 2 ^ (32 - p)) := le_max_right _ _
  · calc min ((m + i + 1) * 2 ^ (32 - p)) ((m + j + 1) * 2 ^ (32 - p))
        ≤ (m + j + 1) * 2 ^ (32 - p) := min_le_right _ _
    _ ≤ (m + i) * 2 ^ (32 - p) := Nat.mul_le_mul_right _ (by omega)
    _ ≤ max ((m + i) * 2 ^ (32 - p)) ((m + j) * 2 ^ (32 - p)) := le_max_left _ _

/-- Witness for C1 on the base 10.2.0.0/24 with four subnets at the
determined prefix 26, indices 0 and 1. -/
theorem subnets_nonoverlapping_witness :
    deriveSubnetCidr "10.2.0.0/24" 26 0
        = .ok (intToIp (subnetBase 167903232 24 26 0) ++ "/" ++ toString 26) ∧
    deriveSubnetCidr "10.2.0.0/24" 26 1
        = .ok (intToIp (subnetBase 167903232 24 26 1) ++ "/" ++ toString 26) ∧
    Disjoint (cidrRange (subnetBase 167903232 24 26 0) 26)
      (cidrRange (subnetBase 167903232 24 26 1) 26) ∧
    cidrRange (subnetBase 167903232 24 26 0) 26 ⊆ cidrRange 167903232 24 ∧
    cidrRange (subnetBase 167903232 24 26 1) 26 ⊆ cidrRange 167903232 24 :=
  subnets_nonoverlapping "10.2.0.0/24" 167903232 24 4 26 0 1 (by decide)
    (by decide) (by norm_num) (by norm_num) (by norm_num)

theorem splitOnChar_no_sep (sep : Char) (l : List Char) (h : sep ∉ l) :
    splitOnChar sep l = [l] := by
  induction l with
  | nil => rfl
  | cons c rest ih =>
    have hc : c ≠ sep := fun hc => h (hc ▸ List.mem_cons_self c rest)
    have hrest : sep ∉ rest := fun hr => h (List.mem_cons_of_mem c hr)
    simp [splitOnChar, Ne.symm hc, hc, ih hrest]

theorem splitOnChar_append (sep : Char) (l₁ l₂ : List Char) (h : sep ∉ l₁) :
    splitOnChar sep (l₁ ++ sep :: l₂) = l₁ :: splitOnChar sep l₂ := by
  induction l₁ with
  | nil =>
    simp [splitOnChar]
  | cons c rest ih =>
    have hc : c ≠ sep := fun hc => h (hc ▸ List.mem_cons_self c rest)
    have hrest : sep ∉ rest := fun hr => h (List.mem_cons_of_mem c hr)
    simp only [List.cons_append, splitOnChar, List.append_eq]
    rw [ih hrest]
    simp [hc]

theorem digit_not_ws (c : Char) (h : isDigitChar c = true) :
    jsWhitespace c = false := by
  simp only [isDigitChar, Bool.and_eq_true, decide_eq_true_eq] at h
  simp only [jsWhitespace]
  simp only [Bool.or_eq_false_iff, decide_eq_false_iff_not, Bool.and_eq_false_iff]
  omega

theorem digits_trim (l : List Char) (h1 : l ≠ []) (h2 : l.all isDigitChar = true) :
    dropTrailingWhile jsWhitespace (l.dropWhile jsWhitespace) = l := by
  have hall := List.all_eq_true.mp h2
  have hdrop : l.dropWhile jsWhitespace = l := by
    cases l with
    | nil => rfl
    | cons c t =>
      rw [List.dropWhile_cons]
      simp [digit_not_ws c (hall c (List.mem_cons_self c t))]
  rw [hdrop]
  unfold dropTrailingWhile
  cases hrev : l.reverse with
  | nil => simp [List.reverse_eq_nil_iff.mp hrev] at h1
  | cons c t =>
    have hc : c ∈ l := by
      rw [← List.mem_reverse, hrev]
      exact List.mem_cons_self c t
    rw [List.dropWhile_cons]
    simp only [digit_not_ws c (hall c hc), Bool.false_eq_true, if_false]
    rw [← hrev, List.reverse_reverse]

theorem span_all (p : Char → Bool) (l : List Char) (h : l.all p = true) :
    l.span p = (l, []) := by
  rw [List.span_eq_take_drop]
  rw [List.takeWhile_eq_self_iff.mpr (by simpa using List.all_eq_true.mp h)]
  rw [List.dropWhile_eq_nil_iff.mpr (by simpa using List.all_eq_true.mp h)]

theorem digit_ne (c d : Char) (h : isDigitChar c = true)
    (hd : isDigitChar d = false) : c ≠ d := by
  intro heq
  rw [heq, hd] at h
  cases h

theorem parseDec_digits (l : List Char) (h1 : l ≠ [])
    (h2 : l.all isDigitChar = true) :
    parseDec l = some ((natOfDigits l : Int)) := by
  have hall := List.all_eq_true.mp h2
  obtain ⟨c, t, rfl⟩ := List.exists_cons_of_ne_nil h1
  have hc : isDigitChar c = true := hall c (List.mem_cons_self c t)
  have hplus : c ≠ '+' := digit_ne c '+' hc (by decide)
  have hminus : c ≠ '-' := digit_ne c '-' hc (by decide)
  unfold parseDec
  simp only [hplus, hminus, decide_False, Bool.false_eq_true, if_false]
  rw [span_all isDigitChar (c :: t) h2]
  simp

theorem parseNumeric_digits (l : List Char) (h1 : l ≠ [])
    (h2 : l.all isDigitChar = true) :
    parseNumeric l = some ((natOfDigits l : Int)) := by
  have hall := List.all_eq_true.mp h2
  match l with
  | [c] => exact parseDec_digits [c] h1 h2
  | c0 :: c1 :: rest =>
    have hc1 : isDigitChar c1 = true :=
      hall c1 (List.mem_cons_of_mem c0 (List.mem_cons_self c1 rest))
    have hx : c1 ≠ 'x' := digit_ne c1 'x' hc1 (by decide)
    have hX : c1 ≠ 'X' := digit_ne c1 'X' hc1 (by decide)
    have ho : c1 ≠ 'o' := digit_ne c1 'o' hc1 (by decide)
    have hO : c1 ≠ 'O' := digit_ne c1 'O' hc1 (by decide)
    have hb : c1 ≠ 'b' := digit_ne c1 'b' hc1 (by decide)
    have hB : c1 ≠ 'B' := digit_ne c1 'B' hc1 (by decide)
    unfold parseNumeric
    simp only [hx, hX, ho, hO, hb, hB, decide_False, Bool.or_self,
      Bool.and_false, Bool.false_eq_true, if_false]
    exact parseDec_digits (c0 :: c1 :: rest) h1 h2

theorem jsNumberInt_digits (l : List Char) (h1 : l ≠ [])
    (h2 : l.all isDigitChar = true) :
    jsNumberInt l = some ((natOfDigits l : Int)) := by
  unfold jsNumberInt
  rw [digits_trim l h1 h2]
  simp only [List.isEmpty_eq_true, h1, if_false]
  exact parseNumeric_digits l h1 h2

theorem specOctet_parts (l : List Char) (h : specOctet l = true) :
    l ≠ [] ∧ l.all isDigitChar = true ∧ natOfDigits l ≤ 255 := by
  unfold specOctet at h
  simp only [Bool.and_eq_true, Bool.not_eq_true, decide_eq_true_eq,
    List.isEmpty_eq_false] at h
  exact ⟨by simpa using h.1.1, h.1.2, h.2⟩

theorem all_digits_not_mem (l : List Char) (h : l.all isDigitChar = true)
    (c : Char) (hc : isDigitChar c = false) : c ∉ l := by
  intro hm
  rw [List.all_eq_true.mp h c hm] at hc
  cases hc

theorem parseOctets_cons (l : List Char) (rest : List (List Char))
    (h1 : l ≠ []) (h2 : l.all isDigitChar = true) (h3 : natOfDigits l ≤ 255) :
    parseOctets (l :: rest) =
      (parseOctets rest).bind (fun vs => .ok (natOfDigits l :: vs)) := by
  conv_lhs => rw [parseOctets]
  rw [jsNumberInt_digits l h1 h2]
  have hn : ¬((natOfDigits l : Int) < 0) := by
    simp [Int.natCast_nonneg]
  have hm : ¬((255 : Int) < (natOfDigits l : Int)) := by
    exact_mod_cast Nat.not_lt.mpr h3
  simp [hn, hm, Except.bind]
  cases parseOctets rest <;> rfl

/-- C7 counterexample: the string 10..0.0/24 violates the stated format (its
second octet is empty, not a decimal integer), yet parseCidr accepts it — the
JavaScript Number coercion turns the empty segment into 0 — so acceptance is
not exactly the stated format. -/
theorem parseCidr_exact_format_refuted :
    specCidrFormat "10..0.0/24" = false ∧
      parseCidr "10..0.0/24" = .ok (167772160, 24) := by decide

/-- C7 amended: every string of the stated format — four dot-separated
decimal octets in 0..255, a slash, a decimal prefix in 0..32 — parses to the
expected base address and prefix, and 999.1.1.1/24 fails with
InvalidCidrFormat; the converse direction of the original claim is false
(parseCidr also accepts strings outside the format, see the
counterexample). -/
theorem parseCidr_amended :
    (∀ a b c d pre : List Char,
        specOctet a = true → specOctet b = true → specOctet c = true →
        specOctet d = true →
        pre ≠ [] → pre.all isDigitChar = true → natOfDigits pre ≤ 32 →
        parseCidr ⟨a ++ '.' :: (b ++ '.' :: (c ++ '.' :: (d ++ '/' :: pre)))⟩
          = .ok (natOfDigits a * 256 ^ 3 + natOfDigits b * 256 ^ 2 +
              natOfDigits c * 256 ^ 1 + natOfDigits d, natOfDigits pre)) ∧
    parseCidr "999.1.1.1/24" = .error .InvalidCidrFormat := by
  constructor
  · intro a b c d pre ha hb hc hd hp1 hp2 hp3
    obtain ⟨ha1, ha2, ha3⟩ := specOctet_parts a ha
    obtain ⟨hb1, hb2, hb3⟩ := specOctet_parts b hb
    obtain ⟨hc1, hc2, hc3⟩ := specOctet_parts c hc
    obtain ⟨hd1, hd2, hd3⟩ := specOctet_parts d hd
    have hdota : '.' ∉ a := all_digits_not_mem a ha2 '.' (by decide)
    have hdotb : '.' ∉ b := all_digits_not_mem b hb2 '.' (by decide)
    have hdotc : '.' ∉ c := all_digits_not_mem c hc2 '.' (by decide)
    have hdotd : '.' ∉ d := all_digits_not_mem d hd2 '.' (by decide)
    have hsla : '/' ∉ a := all_digits_not_mem a ha2 '/' (by decide)
    have hslb : '/' ∉ b := all_digits_not_mem b hb2 '/' (by decide)
    have hslc : '/' ∉ c := all_digits_not_mem c hc2 '/' (by decide)
    have hsld : '/' ∉ d := all_digits_not_mem d hd2 '/' (by decide)
    have hslp : '/' ∉ pre := all_digits_not_mem pre hp2 '/' (by decide)
    have hnet : '/' ∉ a ++ '.' :: (b ++ '.' :: (c ++ '.' :: d)) := by
      simp only [List.mem_append, List.mem_cons]
      rintro (h | h | h | h | h | h | h) <;>
        first
          | exact hsla h
          | exact hslb h
          | exact hslc h
          | exact hsld h
          | simp at h
    have hassoc : a ++ '.' :: (b ++ '.' :: (c ++ '.' :: (d ++ '/' :: pre)))
        = (a ++ '.' :: (b ++ '.' :: (c ++ '.' :: d))) ++ '/' :: pre := by
      simp [List.append_assoc]
    have hsplit1 : splitOnChar '/'
        (a ++ '.' :: (b ++ '.' :: (c ++ '.' :: (d ++ '/' :: pre))))
        = [a ++ '.' :: (b ++ '.' :: (c ++ '.' :: d)), pre] := by
      rw [hassoc, splitOnChar_append '/' _ pre hnet,
        splitOnChar_no_sep '/' pre hslp]
    have hsplit2 : splitOnChar '.' (a ++ '.' :: (b ++ '.' :: (c ++ '.' :: d)))
        = [a, b, c, d] := by
      rw [splitOnChar_append '.' a _ hdota, splitOnChar_append '.' b _ hdotb,
        splitOnChar_append '.' c _ hdotc, splitOnChar_no_sep '.' d hdotd]
    have hoct : parseOctets [a, b, c, d]
        = .ok [natOfDigits a, natOfDigits b, natOfDigits c, natOfDigits d] := by
      rw [parseOctets_cons a _ ha1 ha2 ha3, parseOctets_cons b _ hb1 hb2 hb3,
        parseOctets_cons c _ hc1 hc2 hc3, parseOctets_cons d _ hd1 hd2 hd3]
      rfl
    have hnetne : a ++ '.' :: (b ++ '.' :: (c ++ '.' :: d)) ≠ [] := by
      obtain ⟨a0, a', rfl⟩ := List.exists_cons_of_ne_nil ha1
      simp
    unfold parseCidr
    simp only [hsplit1, List.getD_cons_zero, List.getD_cons_succ]
    rw [if_neg (by simp [hnetne, hp1])]
    rw [hsplit2, hoct, jsNumberInt_digits pre hp1 hp2]
    have hn : ¬((natOfDigits pre : Int) < 0) := by
      simp [Int.natCast_nonneg]
    have hm : ¬((32 : Int) < (natOfDigits pre : Int)) := by
      exact_mod_cast Nat.not_lt.mpr hp3
    simp [hn, hm, Except.bind]
    rfl
  · decide

/-- Witness for C7 on 10.2.0.0/24 (well-formed, parses) together with the
failing concrete scenario of the claim. -/
theorem parseCidr_amended_witness :
    parseCidr "10.2.0.0/24" = .ok (167903232, 24) ∧
      parseCidr "999.1.1.1/24" = .error .InvalidCidrFormat := by
  constructor
  · have h := parseCidr_amended.1 "10".data "2".data "0".data "0".data
      "24".data (by decide) (by decide) (by decide) (by decide) (by decide)
      (by decide) (by decide)
    exact h
  · exact parseCidr_amended.2

/-! ## Length lemmas for buildName (claims C2 and C10) -/

theorem dropWhile_length_le (p : Char → Bool) (l : List Char) :
    (l.dropWhile p).length ≤ l.length := by
  induction l with
  | nil => simp
  | cons c rest ih =>
    rw [List.dropWhile_cons]
    split
    · exact le_trans ih (Nat.le_succ _)
    · exact le_refl _

theorem dropTrailingWhile_length_le (p : Char → Bool) (l : List Char) :
    (dropTrailingWhile p l).length ≤ l.length := by
  unfold dropTrailingWhile
  rw [List.length_reverse]
  calc (l.reverse.dropWhile p).length ≤ l.reverse.length :=
    dropWhile_length_le p l.reverse
  _ = l.length := List.length_reverse l.reverse ▸ by simp

theorem collapseAux_length (l : List Char) : ∀ st : CState,
    (collapseAux st l).length ≤
      (match st with | .pending _ => 1 | _ => 0) + l.length := by
  induction l with
  | nil => intro st; cases st <;> simp [collapseAux]
  | cons c rest ih =>
    intro st
    have ihn := ih .normal
    have ihs := ih .swallow
    cases st with
    | normal =>
      by_cases hsep : isSepChar c = true
      · have ihp := ih (.pending c)
        simp only [collapseAux, hsep, if_true]
        simp at ihp ⊢
        omega
      · simp only [collapseAux, hsep, Bool.false_eq_true, if_false,
          List.length_cons]
        simp at ihn ⊢
        omega
    | pending p =>
      by_cases hsep : isSepChar c = true
      · simp only [collapseAux, hsep, if_true, List.length_cons]
        simp at ihs ⊢
        omega
      · simp only [collapseAux, hsep, Bool.false_eq_true, if_false,
          List.length_cons]
        simp at ihn ⊢
        omega
    | swallow =>
      by_cases hsep : isSepChar c = true
      · simp only [collapseAux, hsep, if_true]
        simp at ihs ⊢
        omega
      · simp only [collapseAux, hsep, Bool.false_eq_true, if_false,
          List.length_cons]
        simp at ihn ⊢
        omega

theorem collapseSeps_length_le (l : List Char) :
    (collapseSeps l).length ≤ l.length := by
  have := collapseAux_length l .normal
  simpa [collapseSeps] using this

theorem sanitizeSegment_length_le (l : List Char) :
    (sanitizeSegment l).length ≤ l.length := by
  unfold sanitizeSegment stripLeadingHyphens stripTrailingHyphens
  calc (dropTrailingWhile (fun c => c = '-')
        ((collapseSeps (l.map fun c => if isNameChar c then c else '-')).dropWhile
          fun c => c = '-')).length
      ≤ ((collapseSeps (l.map fun c => if isNameChar c then c else '-')).dropWhile
          (fun c => c = '-')).length := dropTrailingWhile_length_le _ _
  _ ≤ (collapseSeps (l.map fun c => if isNameChar c then c else '-')).length :=
      dropWhile_length_le _ _
  _ ≤ (l.map fun c => if isNameChar c then c else '-').length :=
      collapseSeps_length_le _
  _ = l.length := List.length_map _ _

theorem ensureValidStart_length_le (l : List Char) :
    (ensureValidStart l).length ≤ max l.length MIN_NAME_LENGTH := by
  simp only [ensureValidStart]
  split
  · simp [FALLBACK_SEGMENT, MIN_NAME_LENGTH]
  · exact le_trans (dropWhile_length_le _ _) (le_max_left _ _)

theorem ensureValidStart_ne_nil (l : List Char) : ensureValidStart l ≠ [] := by
  simp only [ensureValidStart]
  split
  · simp [FALLBACK_SEGMENT]
  · next h => simpa using h

theorem takeLast_length_le (k : Nat) (l : List Char) :
    (takeLast k l).length ≤ k := by
  unfold takeLast
  simp [List.length_drop]
  omega

theorem ite_take_length_le (m : Nat) (c : List Char) :
    (if m < c.length then c.take m else c).length ≤ m := by
  split
  · simp [List.length_take]
  · next h => omega

theorem shrinkWithHash_length_le (v : List Char) (m : Nat) :
    (shrinkWithHash v m).length ≤ m := by
  simp only [shrinkWithHash]
  split
  · assumption
  · split
    · simp [List.length_take]
    · exact ite_take_length_le m _

theorem finalizeName_length_le (c0 : List Char) (m : Nat)
    (h4 : MIN_NAME_LENGTH ≤ m) (hc : c0.length ≤ m) :
    (finalizeName c0 m).length ≤ m := by
  simp only [finalizeName]
  have h1 : (ensureValidStart (sanitizeSegment c0)).length ≤ m := by
    have ha := ensureValidStart_length_le (sanitizeSegment c0)
    have hb := sanitizeSegment_length_le c0
    simp only [MIN_NAME_LENGTH] at ha h4
    omega
  rw [if_neg (by omega : ¬ m < (ensureValidStart (sanitizeSegment c0)).length)]
  split
  · simp only [List.length_take, List.length_append, List.length_cons,
      List.length_nil]
    omega
  · exact h1

theorem joinSegments_length (nb s1 : List Char) (m : Nat)
    (hnb : nb.length ≤ m) :
    (joinSegments nb (suffixAfterBase nb s1 m)).length ≤ m := by
  simp only [joinSegments, suffixAfterBase]
  by_cases h0 : m - nb.length - 1 = 0
  · simp only [h0, if_pos rfl]
    simpa using hnb
  · rw [if_neg h0]
    by_cases h1 : m - nb.length - 1 < s1.length
    · rw [if_pos h1]
      have ht : (takeLast (m - nb.length - 1) s1).length ≤ m - nb.length - 1 :=
        takeLast_length_le _ _
      split
      · simp only [List.length_append, List.length_cons]
        omega
      · exact hnb
    · rw [if_neg h1]
      push_neg at h1
      split
      · simp only [List.length_append, List.length_cons]
        omega
      · exact hnb

theorem budgetAndSuffix_snd_le (s1 : List Char) (m : Nat)
    (h : MIN_NAME_LENGTH ≤ m) :
    (budgetAndSuffix s1 m).2 ≤ m := by
  simp only [budgetAndSuffix]
  split
  · split
    · simp
    · simpa using h
  · simp
    omega

/-- C2: for a maximum length of at least the minimum viable name length 4
(below which claim C10 documents that the 4-character padding takes
precedence), the built name never exceeds the maximum length. -/
theorem buildName_length_le (base suffix : String) (maxLength : Nat)
    (h : MIN_NAME_LENGTH ≤ maxLength) :
    (buildName base suffix maxLength).length ≤ maxLength := by
  show (buildNameList base.data suffix.data maxLength).length ≤ maxLength
  simp only [buildNameList]
  split
  · apply finalizeName_length_le _ _ h
    apply joinSegments_length
    exact le_trans (shrinkWithHash_length_le _ _) (budgetAndSuffix_snd_le _ _ h)
  · apply finalizeName_length_le _ _ h
    apply shrinkWithHash_length_le

/-- Witness for C2 at the service-name call site values. -/
theorem buildName_length_le_witness :
    (buildName "test-app" "service-dev" 40).length ≤ 40 :=
  buildName_length_le "test-app" "service-dev" 40 (by decide)

/-! ## Head and tail character lemmas for the name pipeline -/

theorem dropWhile_head_false (p : Char → Bool) (l : List Char) (c : Char)
    (t : List Char) (h : l.dropWhile p = c :: t) : p c = false := by
  induction l with
  | nil => cases h
  | cons a rest ih =>
    rw [List.dropWhile_cons] at h
    split at h
    · exact ih h
    · next hp =>
      cases h
      simpa using hp

theorem ensureValidStart_head (l : List Char) (c : Char) (t : List Char)
    (h : ensureValidStart l = c :: t) : isAlnumChar c = true := by
  simp only [ensureValidStart] at h
  split at h
  · rw [show FALLBACK_SEGMENT = 'a' :: "pp0".data from rfl] at h
    cases h
    decide
  · have := dropWhile_head_false (fun c => !isAlnumChar c) l c t h
    simpa using this

theorem alnum_not_sep (c : Char) (h : isAlnumChar c = true) :
    isSepChar c = false := by
  simp only [isSepChar, Bool.or_eq_false_iff, decide_eq_false_iff_not]
  constructor <;> intro heq <;> subst heq <;> exact absurd h (by decide)

theorem alnum_ne_hyphen (c : Char) (h : isAlnumChar c = true) : ¬(c = '-') := by
  intro heq
  subst heq
  exact absurd h (by decide)

theorem evs_of_head_alnum (c : Char) (t : List Char)
    (h : isAlnumChar c = true) : ensureValidStart (c :: t) = c :: t := by
  simp only [ensureValidStart, List.dropWhile_cons, h]
  simp

theorem dropWhile_append_singleton (p : Char → Bool) (xs : List Char)
    (c : Char) (hc : p c = false) :
    ∃ ys, (xs ++ [c]).dropWhile p = ys ++ [c] := by
  induction xs with
  | nil => exact ⟨[], by simp [List.dropWhile_cons, hc]⟩
  | cons x rest ih =>
    by_cases hx : p x = true
    · obtain ⟨ys, hys⟩ := ih
      exact ⟨ys, by simp [List.dropWhile_cons, hx, hys]⟩
    · exact ⟨x :: rest, by simp [List.dropWhile_cons, hx]⟩

theorem stripTrailingHyphens_cons_keep (c : Char) (t : List Char)
    (hc : ¬(c = '-')) :
    ∃ u, stripTrailingHyphens (c :: t) = c :: u := by
  unfold stripTrailingHyphens dropTrailingWhile
  obtain ⟨ys, hys⟩ := dropWhile_append_singleton (fun d => d = '-') t.reverse c
    (by simpa using hc)
  rw [show (c :: t).reverse = t.reverse ++ [c] by simp]
  rw [hys]
  exact ⟨ys.reverse, by simp⟩

theorem stripTrailingHyphens_length_le (l : List Char) :
    (stripTrailingHyphens l).length ≤ l.length :=
  dropTrailingWhile_length_le _ l

theorem finalizeName_small (c0 : List Char) (m : Nat)
    (hsmall : m < MIN_NAME_LENGTH) :
    (finalizeName c0 m).length = MIN_NAME_LENGTH := by
  simp only [finalizeName]
  obtain ⟨c, t, hc1⟩ :=
    List.exists_cons_of_ne_nil (ensureValidStart_ne_nil (sanitizeSegment c0))
  have hhead : isAlnumChar c = true := ensureValidStart_head _ _ _ hc1
  rw [hc1]
  by_cases hm : m < (c :: t).length
  · rw [if_pos hm]
    cases m with
    | zero =>
      simp [stripTrailingHyphens, dropTrailingWhile, ensureValidStart,
        FALLBACK_SEGMENT, MIN_NAME_LENGTH]
    | succ mp =>
      rw [List.take_succ_cons]
      obtain ⟨u, hu⟩ :=
        stripTrailingHyphens_cons_keep c (t.take mp) (alnum_ne_hyphen c hhead)
      rw [hu, evs_of_head_alnum c u hhead]
      have hlen : (c :: u).length ≤ mp + 1 := by
        rw [← hu]
        calc (stripTrailingHyphens (c :: t.take mp)).length
            ≤ (c :: t.take mp).length := stripTrailingHyphens_length_le _
        _ = (t.take mp).length + 1 := by simp
        _ ≤ mp + 1 := by simp [List.length_take]
      rw [if_pos (by simp only [MIN_NAME_LENGTH] at hsmall ⊢; omega)]
      simp only [List.length_take, List.length_append, List.length_cons,
        List.length_nil, MIN_NAME_LENGTH]
      omega
  · rw [if_neg hm]
    push_neg at hm
    rw [if_pos (by omega : (c :: t).length < MIN_NAME_LENGTH)]
    simp only [List.length_take, List.length_append, List.length_cons,
      List.length_nil, MIN_NAME_LENGTH]
    omega

/-- C10: when the requested maximum length is below MIN_NAME_LENGTH = 4, the
final padding step overrides the truncation step and the built name has
length exactly 4, exceeding the requested maximum. -/
theorem buildName_pads_below_min (base suffix : String) (maxLength : Nat)
    (h : maxLength < MIN_NAME_LENGTH) :
    (buildName base suffix maxLength).length = MIN_NAME_LENGTH ∧
      maxLength < (buildName base suffix maxLength).length := by
  have hlen : (buildName base suffix maxLength).length = MIN_NAME_LENGTH := by
    show (buildNameList base.data suffix.data maxLength).length = _
    simp only [buildNameList]
    split
    · exact finalizeName_small _ _ h
    · exact finalizeName_small _ _ h
  exact ⟨hlen, by rw [hlen]; exact h⟩

/-- Witness for C10 at maxLength 2. -/
theorem buildName_pads_below_min_witness :
    (buildName "a" "" 2).length = MIN_NAME_LENGTH ∧
      2 < (buildName "a" "" 2).length :=
  buildName_pads_below_min "a" "" 2 (by decide)

theorem mem_dropWhile_sub (p : Char → Bool) (l : List Char) :
    ∀ c ∈ l.dropWhile p, c ∈ l := by
  intro c hc
  exact (List.dropWhile_suffix p).subset hc

theorem mem_collapseAux (l : List Char) : ∀ (st : CState)
    (c : Char), c ∈ collapseAux st l →
      (match st with | .pending p => c = p | _ => False) ∨ c ∈ l ∨ c = '-' := by
  induction l with
  | nil =>
    intro st c hc
    cases st <;> simp [collapseAux] at hc <;> simp [hc]
  | cons a rest ih =>
    intro st c hc
    cases st with
    | normal =>
      by_cases hsep : isSepChar a = true
      · simp only [collapseAux, hsep, if_true] at hc
        rcases ih (.pending a) c hc with h | h | h
        · simp at h
          simp [h]
        · simp [h]
        · simp [h]
      · simp only [collapseAux, hsep, Bool.false_eq_true, if_false,
          List.mem_cons] at hc
        rcases hc with rfl | hc
        · simp
        · rcases ih .normal c hc with h | h | h
          · cases h
          · simp [h]
          · simp [h]
    | pending p =>
      by_cases hsep : isSepChar a = true
      · simp only [collapseAux, hsep, if_true, List.mem_cons] at hc
        rcases hc with rfl | hc
        · simp
        · rcases ih .swallow c (by
            have hsub := mem_dropWhile_sub isSepChar rest
            exact hc) with h | h | h
          · cases h
          · rcases (ih .swallow c hc) with h2 | h2 | h2
            · cases h2
            · simp [h2]
            · simp [h2]
          · simp [h]
      · simp only [collapseAux, hsep, Bool.false_eq_true, if_false,
          List.mem_cons] at hc
        rcases hc with rfl | rfl | hc
        · simp
        · simp
        · rcases ih .normal c hc with h | h | h
          · cases h
          · simp [h]
          · simp [h]
    | swallow =>
      by_cases hsep : isSepChar a = true
      · simp only [collapseAux, hsep, if_true] at hc
        rcases ih .swallow c hc with h | h | h
        · cases h
        · simp [h]
        · simp [h]
      · simp only [collapseAux, hsep, Bool.false_eq_true, if_false,
          List.mem_cons] at hc
        rcases hc with rfl | hc
        · simp
        · rcases ih .normal c hc with h | h | h
          · cases h
          · simp [h]
          · simp [h]

theorem sanitizeSegment_all_name (l : List Char) :
    ∀ c ∈ sanitizeSegment l, isNameChar c = true := by
  intro c hc
  unfold sanitizeSegment stripLeadingHyphens stripTrailingHyphens
    dropTrailingWhile collapseSeps at hc
  have hc1 := List.mem_reverse.mp hc
  have hc2 := mem_dropWhile_sub _ _ _ hc1
  have hc3 := List.mem_reverse.mp hc2
  have hc4 := mem_dropWhile_sub _ _ _ hc3
  have hc5 := mem_collapseAux _ .normal c hc4
  rcases hc5 with h | h | h
  · cases h
  · rcases List.mem_map.mp h with ⟨d, _, hd⟩
    by_cases hn : isNameChar d = true
    · rw [hn] at hd
      simp at hd
      rw [← hd]
      exact hn
    · simp only [Bool.not_eq_true] at hn
      rw [hn] at hd
      simp at hd
      rw [← hd]
      decide
  · rw [h]
    decide

theorem swallow_head_not_sep (l : List Char) :
    ∀ c t, collapseAux .swallow l = c :: t → isSepChar c = false := by
  induction l with
  | nil => intro c t h; cases h
  | cons a rest ih =>
    intro c t h
    by_cases hsep : isSepChar a = true
    · simp only [collapseAux, hsep, if_true] at h
      exact ih c t h
    · simp only [collapseAux, hsep, Bool.false_eq_true, if_false] at h
      cases h
      simpa using hsep

theorem collapseAux_chain (l : List Char) :
    List.Chain' noTwoSeps (collapseAux .normal l) ∧
    (∀ p, List.Chain' noTwoSeps (collapseAux (.pending p) l)) ∧
    List.Chain' noTwoSeps (collapseAux .swallow l) := by
  induction l with
  | nil =>
    refine ⟨by simp [collapseAux], fun p => by simp [collapseAux], by
      simp [collapseAux]⟩
  | cons a rest ih =>
    obtain ⟨ihn, ihp, ihs⟩ := ih
    have hcons_nonsep : ∀ c, isSepChar c = false →
        List.Chain' noTwoSeps (c :: collapseAux .normal rest) := by
      intro c hcsep
      rw [List.chain'_cons']
      refine ⟨fun y _ => ?_, ihn⟩
      simp [noTwoSeps, hcsep]
    by_cases hsep : isSepChar a = true
    · refine ⟨?_, ?_, ?_⟩
      · simp only [collapseAux, hsep, if_true]
        exact ihp a
      · intro p
        simp only [collapseAux, hsep, if_true]
        rw [List.chain'_cons']
        refine ⟨fun y hy => ?_, ihs⟩
        cases hrec : collapseAux .swallow rest with
        | nil => rw [hrec] at hy; cases hy
        | cons c t =>
          rw [hrec] at hy
          simp at hy
          subst hy
          simp [noTwoSeps, swallow_head_not_sep rest c t hrec]
      · simp only [collapseAux, hsep, if_true]
        exact ihs
    · have hns : isSepChar a = false := by simpa using hsep
      refine ⟨?_, ?_, ?_⟩
      · simp only [collapseAux, hsep, Bool.false_eq_true, if_false]
        exact hcons_nonsep a hns
      · intro p
        simp only [collapseAux, hsep, Bool.false_eq_true, if_false]
        rw [List.chain'_cons']
        refine ⟨fun y hy => ?_, hcons_nonsep a hns⟩
        simp at hy
        subst hy
        simp [noTwoSeps, hns]
      · simp only [collapseAux, hsep, Bool.false_eq_true, if_false]
        exact hcons_nonsep a hns

theorem noTwoSeps_symm_imp : ∀ a b : Char, noTwoSeps a b → noTwoSeps b a := by
  intro a b h
  simp only [noTwoSeps, Bool.and_eq_false_iff] at h ⊢
  tauto

theorem chain_dropTrailingWhile (p : Char → Bool) (l : List Char)
    (h : List.Chain' noTwoSeps l) :
    List.Chain' noTwoSeps (dropTrailingWhile p l) := by
  unfold dropTrailingWhile
  have h1 : List.Chain' noTwoSeps l.reverse := by
    rw [List.chain'_reverse]
    exact List.Chain'.imp (fun a b hab => noTwoSeps_symm_imp a b hab) h
  have h2 : List.Chain' noTwoSeps (l.reverse.dropWhile p) :=
    List.Chain'.suffix h1 (List.dropWhile_suffix p)
  rw [List.chain'_reverse]
  exact List.Chain'.imp (fun a b hab => noTwoSeps_symm_imp a b hab) h2

theorem sanitizeSegment_chain (l : List Char) :
    List.Chain' noTwoSeps (sanitizeSegment l) := by
  unfold sanitizeSegment stripLeadingHyphens stripTrailingHyphens collapseSeps
  apply chain_dropTrailingWhile
  apply List.Chain'.suffix _ (List.dropWhile_suffix _)
  exact (collapseAux_chain _).1

theorem stripTrailing_last (Y : List Char) :
    ∀ c ∈ (stripTrailingHyphens Y).getLast?, ¬(c = '-') := by
  intro c hc
  unfold stripTrailingHyphens dropTrailingWhile at hc
  rw [List.getLast?_reverse] at hc
  cases hdrop : Y.reverse.dropWhile (fun c => c = '-') with
  | nil => rw [hdrop] at hc; cases hc
  | cons d t =>
    rw [hdrop] at hc
    simp only [List.head?_cons, Option.mem_def, Option.some.injEq] at hc
    have hd := dropWhile_head_false (fun c => c = '-') Y.reverse d t hdrop
    rw [← hc]
    simpa using hd

theorem mem_stripTrailing_sub (Y : List Char) :
    ∀ c ∈ stripTrailingHyphens Y, c ∈ Y := by
  intro c hc
  unfold stripTrailingHyphens dropTrailingWhile at hc
  exact List.mem_reverse.mp (mem_dropWhile_sub _ _ _ (List.mem_reverse.mp hc))

theorem getLast?_of_suffix (l₁ l₂ : List Char) (h : l₁ <:+ l₂)
    (hne : l₁ ≠ []) : l₁.getLast? = l₂.getLast? := by
  obtain ⟨pre, rfl⟩ := h
  exact (List.getLast?_append_of_ne_nil pre hne).symm

theorem evs_props (S : List Char)
    (hall : ∀ c ∈ S, isNameChar c = true)
    (hchain : List.Chain' noTwoSeps S)
    (hlast : ∀ c ∈ S.getLast?, ¬(c = '-')) :
    ensureValidStart S ≠ [] ∧
    (∀ c ∈ (ensureValidStart S).head?, isAlnumChar c = true) ∧
    (∀ c ∈ ensureValidStart S, isNameChar c = true) ∧
    List.Chain' noTwoSeps (ensureValidStart S) ∧
    (∀ c ∈ (ensureValidStart S).getLast?, ¬(c = '-')) := by
  refine ⟨ensureValidStart_ne_nil S, ?_, ?_, ?_, ?_⟩
  · intro c hc
    cases hevs : ensureValidStart S with
    | nil => rw [hevs] at hc; cases hc
    | cons d t =>
      rw [hevs] at hc
      simp only [List.head?_cons, Option.mem_def, Option.some.injEq] at hc
      rw [← hc]
      exact ensureValidStart_head S d t hevs
  · intro c hc
    simp only [ensureValidStart] at hc
    split at hc
    · have hmem : c ∈ ['a', 'p', 'p', '0'] := by
        simpa [FALLBACK_SEGMENT] using hc
      simp only [List.mem_cons, List.not_mem_nil, or_false] at hmem
      rcases hmem with h | h | h | h <;> subst h <;> decide
    · exact hall c (mem_dropWhile_sub _ _ _ hc)
  · simp only [ensureValidStart]
    split
    · rw [show FALLBACK_SEGMENT = ['a', 'p', 'p', '0'] from rfl]
      simp only [List.chain'_cons, List.chain'_singleton, and_true]
      refine ⟨by decide, by decide, by decide⟩
    · exact List.Chain'.suffix hchain (List.dropWhile_suffix _)
  · intro c hc
    simp only [ensureValidStart] at hc
    split at hc
    · simp only [FALLBACK_SEGMENT] at hc
      simp at hc
      subst hc
      decide
    · next hne =>
      have hs : S.dropWhile (fun c => !isAlnumChar c) ≠ [] := by
        simpa using hne
      rw [getLast?_of_suffix _ S (List.dropWhile_suffix _) hs] at hc
      exact hlast c hc

theorem sanitize_evs_props (c0 : List Char) :
    ensureValidStart (sanitizeSegment c0) ≠ [] ∧
    (∀ c ∈ (ensureValidStart (sanitizeSegment c0)).head?,
      isAlnumChar c = true) ∧
    (∀ c ∈ ensureValidStart (sanitizeSegment c0), isNameChar c = true) ∧
    List.Chain' noTwoSeps (ensureValidStart (sanitizeSegment c0)) ∧
    (∀ c ∈ (ensureValidStart (sanitizeSegment c0)).getLast?, ¬(c = '-')) :=
  evs_props (sanitizeSegment c0) (sanitizeSegment_all_name c0)
    (sanitizeSegment_chain c0)
    (by
      have : sanitizeSegment c0 = stripTrailingHyphens
          (stripLeadingHyphens (collapseSeps
            (c0.map fun c => if isNameChar c then c else '-'))) := rfl
      rw [this]
      exact stripTrailing_last _)

theorem mem_take_sub (l : List Char) (n : Nat) : ∀ c ∈ l.take n, c ∈ l := by
  intro c hc
  induction l generalizing n with
  | nil => simp at hc
  | cons a rest ih =>
    cases n with
    | zero => simp at hc
    | succ k =>
      rw [List.take_succ_cons] at hc
      rcases List.mem_cons.mp hc with h | h
      · simp [h]
      · exact List.mem_cons_of_mem a (ih k h)

theorem chain'_take (l : List Char) (n : Nat)
    (h : List.Chain' noTwoSeps l) : List.Chain' noTwoSeps (l.take n) := by
  induction l generalizing n with
  | nil => simp
  | cons a rest ih =>
    cases n with
    | zero => simp
    | succ k =>
      rw [List.take_succ_cons, List.chain'_cons']
      rw [List.chain'_cons'] at h
      refine ⟨?_, ih k h.2⟩
      intro y hy
      apply h.1
      cases rest with
      | nil => simp at hy
      | cons b t =>
        cases k with
        | zero => simp at hy
        | succ j =>
          rw [List.take_succ_cons] at hy
          simpa using hy

theorem zeros_chain :
    List.Chain' noTwoSeps ['0', '0', '0', '0'] := by
  simp only [List.chain'_cons, List.chain'_singleton, and_true]
  refine ⟨by decide, by decide, by decide⟩

theorem pad_props (c2 : List Char) (m : Nat) (hne : c2 ≠ [])
    (hhead : ∀ c ∈ c2.head?, isAlnumChar c = true)
    (hall : ∀ c ∈ c2, isNameChar c = true)
    (hchain : List.Chain' noTwoSeps c2)
    (hlast : ∀ c ∈ c2.getLast?, ¬(c = '-')) :
    (if c2.length < MIN_NAME_LENGTH
        then (c2 ++ ['0', '0', '0', '0']).take MIN_NAME_LENGTH else c2) ≠ [] ∧
    (∀ c ∈ (if c2.length < MIN_NAME_LENGTH
        then (c2 ++ ['0', '0', '0', '0']).take MIN_NAME_LENGTH
        else c2).head?, isAlnumChar c = true) ∧
    (∀ c ∈ (if c2.length < MIN_NAME_LENGTH
        then (c2 ++ ['0', '0', '0', '0']).take MIN_NAME_LENGTH else c2),
      isNameChar c = true) ∧
    List.Chain' noTwoSeps (if c2.length < MIN_NAME_LENGTH
        then (c2 ++ ['0', '0', '0', '0']).take MIN_NAME_LENGTH else c2) ∧
    (∀ c ∈ (if c2.length < MIN_NAME_LENGTH
        then (c2 ++ ['0', '0', '0', '0']).take MIN_NAME_LENGTH
        else c2).getLast?, ¬(c = '-')) := by
  split
  · next hlen =>
    have happ_chain : List.Chain' noTwoSeps (c2 ++ ['0', '0', '0', '0']) := by
      rw [List.chain'_append]
      refine ⟨hchain, zeros_chain, ?_⟩
      intro x _ y hy
      simp only [List.head?_cons, Option.mem_def, Option.some.injEq] at hy
      subst hy
      simp [noTwoSeps, isSepChar]
    obtain ⟨cc, t, rfl⟩ := List.exists_cons_of_ne_nil hne
    rw [show MIN_NAME_LENGTH = 4 from rfl] at hlen ⊢
    refine ⟨?_, ?_, ?_, ?_, ?_⟩
    · rw [List.cons_append, List.take_succ_cons]
      simp
    · rw [List.cons_append, List.take_succ_cons]
      intro c hc
      simp only [List.head?_cons, Option.mem_def, Option.some.injEq] at hc
      rw [← hc]
      exact hhead cc (by simp)
    · intro c hc
      have hc2 := mem_take_sub _ _ c hc
      rcases List.mem_append.mp hc2 with h | h
      · exact hall c h
      · simp only [List.mem_cons, List.not_mem_nil, or_false] at h
        rcases h with h | h | h | h <;> subst h <;> decide
    · exact chain'_take _ 4 happ_chain
    · have hkle : (cc :: t).length ≤ 4 := by omega
      rw [List.take_append_eq_append_take, List.take_of_length_le hkle]
      have hj : 4 - (cc :: t).length = 1 ∨ 4 - (cc :: t).length = 2 ∨
          4 - (cc :: t).length = 3 := by
        have hpos : 0 < (cc :: t).length := by simp
        omega
      intro c hc
      have hlast0 : ∀ j, j = 1 ∨ j = 2 ∨ j = 3 →
          (List.take j ['0', '0', '0', '0']).getLast? = some '0' := by
        intro j hj2
        rcases hj2 with rfl | rfl | rfl <;> rfl
      rw [List.getLast?_append_of_ne_nil _ (by
        rcases hj with h | h | h <;> rw [h] <;> simp)] at hc
      rw [hlast0 _ hj] at hc
      simp only [Option.mem_def, Option.some.injEq] at hc
      rw [← hc]
      decide
  · exact ⟨hne, hhead, hall, hchain, hlast⟩

theorem finalizeName_props (c0 : List Char) (m : Nat) :
    finalizeName c0 m ≠ [] ∧
    (∀ c ∈ (finalizeName c0 m).head?, isAlnumChar c = true) ∧
    (∀ c ∈ finalizeName c0 m, isNameChar c = true) ∧
    List.Chain' noTwoSeps (finalizeName c0 m) ∧
    (∀ c ∈ (finalizeName c0 m).getLast?, ¬(c = '-')) := by
  simp only [finalizeName]
  obtain ⟨h1ne, h1head, h1all, h1chain, h1last⟩ := sanitize_evs_props c0
  by_cases hm : m < (ensureValidStart (sanitizeSegment c0)).length
  · rw [if_pos hm]
    have hstrip := evs_props
      (stripTrailingHyphens ((ensureValidStart (sanitizeSegment c0)).take m))
      (fun c hc => h1all c (mem_take_sub _ _ c (mem_stripTrailing_sub _ c hc)))
      (chain_dropTrailingWhile _ _ (chain'_take _ m h1chain))
      (stripTrailing_last _)
    exact pad_props _ m hstrip.1 hstrip.2.1 hstrip.2.2.1 hstrip.2.2.2.1
      hstrip.2.2.2.2
  · rw [if_neg hm]
    exact pad_props _ m h1ne h1head h1all h1chain h1last

/-- C5 counterexample: the claim says the output never ends in a separator
character, hyphen or underscore; but only trailing hyphens are stripped, so
buildName of abc_ returns a name ending in an underscore. -/
theorem buildName_trailing_sep_counterexample :
    buildName "abc_" "" 10 = "abc_" ∧ "abc_".data.getLast? = some '_' :=
  ⟨by decide, by decide⟩

/-- C5 amended: the built name is nonempty, starts with an alphanumeric
character, consists only of alphanumerics, hyphens and underscores, never
contains two consecutive separator characters, and never ends in a hyphen —
but it may end in an underscore (only trailing hyphens are stripped), which
is the one part of the original claim that fails. -/
theorem buildName_charset_amended (base suffix : String) (m : Nat) :
    (buildName base suffix m).data ≠ [] ∧
    (∀ c ∈ (buildName base suffix m).data.head?, isAlnumChar c = true) ∧
    (∀ c ∈ (buildName base suffix m).data, isNameChar c = true) ∧
    List.Chain' noTwoSeps (buildName base suffix m).data ∧
    (∀ c ∈ (buildName base suffix m).data.getLast?, ¬(c = '-')) := by
  have hdata : (buildName base suffix m).data
      = buildNameList base.data suffix.data m := rfl
  rw [hdata]
  simp only [buildNameList]
  split
  · exact finalizeName_props _ m
  · exact finalizeName_props _ m

set_option maxRecDepth 200000 in
/-- C6 counterexample: on a long base whose sanitized form differs from the
original, the source buildName appends the sha1 of the sanitized base segment
(digest b57f4a), not the sha1 of the original unsanitized base that the claim
prescribes (digest 61c080, as buildNameSpec computes). -/
theorem buildName_hash_source_counterexample :
    buildName "my!app!name!is!very!long!!" "" 20 = "my-app-name-i-b57f4a" ∧
    buildNameSpec "my!app!name!is!very!long!!" "" 20 = "my-app-name-i-61c080" ∧
    buildName "my!app!name!is!very!long!!" "" 20
      ≠ buildNameSpec "my!app!name!is!very!long!!" "" 20 := by
  refine ⟨by decide, by decide, by decide⟩

/-- C6 amended: the appended short hash is derived from the sanitized base
segment, not from the original unsanitized base — buildName depends on its
base argument only through sanitizeSegment — and in the shrink branch the
hash of the shrunk value is joined to the stripped prefix by a hyphen. -/
theorem buildName_hash_source_amended :
    (∀ (b1 b2 suffix : String) (m : Nat),
        sanitizeSegment b1.data = sanitizeSegment b2.data →
        buildName b1 suffix m = buildName b2 suffix m) ∧
    (∀ (v : List Char) (m : Nat), MIN_NAME_LENGTH < m → m < v.length →
        ∃ pfx : List Char, shrinkWithHash v m
          = pfx ++ '-' :: (sha1hex (String.mk v)).data.take
              (min 6 (max 2 (m - 2)))) := by
  constructor
  · intro b1 b2 suffix m h
    show (⟨buildNameList b1.data suffix.data m⟩ : String)
      = ⟨buildNameList b2.data suffix.data m⟩
    have : buildNameList b1.data suffix.data m
        = buildNameList b2.data suffix.data m := by
      simp only [buildNameList]
      rw [h]
    rw [this]
  · intro v m h4 hlen
    simp only [shrinkWithHash]
    rw [if_neg (by omega), if_neg (by omega)]
    have hsp : (if (stripTrailingHyphens
          (v.take (max 1 (m - min 6 (max 2 (m - 2)) - 1)))).isEmpty = true
        then FALLBACK_SEGMENT.take (max 1 (m - min 6 (max 2 (m - 2)) - 1))
        else stripTrailingHyphens
          (v.take (max 1 (m - min 6 (max 2 (m - 2)) - 1)))).length
        ≤ max 1 (m - min 6 (max 2 (m - 2)) - 1) := by
      split
      · simp only [List.length_take]
        omega
      · calc (stripTrailingHyphens
            (v.take (max 1 (m - min 6 (max 2 (m - 2)) - 1)))).length
            ≤ (v.take (max 1 (m - min 6 (max 2 (m - 2)) - 1))).length :=
          stripTrailingHyphens_length_le _
        _ ≤ max 1 (m - min 6 (max 2 (m - 2)) - 1) := by
          simp only [List.length_take]
          omega
    rw [if_neg (by
      simp only [List.length_append, List.length_cons, List.length_take,
        MIN_NAME_LENGTH] at hsp h4 ⊢
      omega)]
    exact ⟨_, rfl⟩

/-- Witness for C6 amended: two bases with the same sanitized segment build
the same name, and a concrete shrink exposes the hyphen-joined hash of the
shrunk value. -/
theorem buildName_hash_source_amended_witness :
    buildName "a!b" "x" 10 = buildName "a-b" "x" 10 ∧
    ∃ pfx : List Char, shrinkWithHash "xxxxxxxxxx".data 5
      = pfx ++ '-' :: (sha1hex (String.mk "xxxxxxxxxx".data)).data.take
          (min 6 (max 2 (5 - 2))) :=
  ⟨buildName_hash_source_amended.1 "a!b" "a-b" "x" 10 (by decide),
    buildName_hash_source_amended.2 "xxxxxxxxxx".data 5 (by decide)
      (by decide)⟩

end IacAws
